import Mathlib

/-!
# Verification of the dcr-transcribe per-channel pipeline

Shallow embedding of the core data structures and operations of the
`dcr-transcribe` repository (Rust), together with theorems settling the
frozen claims C1..C10 about it.

Embedded components and their sources:
* `VadState`, `VoiceActivityDetector` — `src/vad.rs`
* `BufferedChunk`, `DropPolicy`, `AudioBuffer` — `src/buffer.rs`, `src/types.rs`
* `ProcState`, `processChunk` — `src/channel_processor.rs` (`ChannelProcessor`)
* `FramerState`, `framerStep` — the PCM framer inside
  `AwsTranscribeBackend::start_stream` in `src/aws_transcribe.rs`
* `computeStability` — the stability computation in `src/aws_transcribe.rs`
* `captureCallback` — the capture data callback in `src/audio_input.rs`
* `removeFillerWords` — `ChannelProcessor::remove_filler_words` in
  `src/channel_processor.rs`

Floating-point computations in the source (the RMS→dB conversion, chunk
durations, frame-size targets, the stable-token ratio) are embedded over
`ℚ`/`ℕ` with exact arithmetic; each such site is noted at its definition.
-/

namespace DcrTranscribe

/-! ## VAD (`src/vad.rs`) -/

/-- Type `VadState` from `src/types.rs`: `Silence` or `Voice { hangover_remaining_ms }`. -/
inductive VadState where
  | Silence : VadState
  | Voice (hangoverRemainingMs : ℕ) : VadState
  deriving DecidableEq, Repr

/-- Struct `VoiceActivityDetector` from `src/vad.rs`.  The `f32` threshold is
embedded as `ℚ`; `sample_rate : u32` and `hangover_duration_ms : u32` as `ℕ`. -/
structure VoiceActivityDetector where
  thresholdDb : ℚ
  hangoverDurationMs : ℕ
  state : VadState
  sampleRate : ℕ
  deriving DecidableEq, Repr

/-- Method `VoiceActivityDetector::process` from `src/vad.rs`, lines 82–130.
The samples slice enters only through its length (used for the duration
computation) and through the RMS-in-dB value `db` computed from it by
`calculate_rms`/`rms_to_db`; that floating-point loudness computation is
abstracted into the input `db : ℚ`, faithful to the source because the
state transition reads the samples only via `db > threshold_db` and
`samples.len()`.  `(samples.len() as f64 / sample_rate as f64 * 1000.0) as u32`
is embedded as exact `ℕ` division `len * 1000 / sampleRate`.
Returns the updated detector and the `bool` result of `process`. -/
def VoiceActivityDetector.process (v : VoiceActivityDetector) (len : ℕ) (db : ℚ) :
    VoiceActivityDetector × Bool :=
  if len = 0 then (v, false)
  else
    let durationMs := len * 1000 / v.sampleRate
    let isVoiceDetected : Bool := v.thresholdDb < db
    let newState :=
      match v.state with
      | VadState.Silence =>
          if isVoiceDetected then VadState.Voice v.hangoverDurationMs else VadState.Silence
      | VadState.Voice hangoverRemainingMs =>
          if isVoiceDetected then VadState.Voice v.hangoverDurationMs
          else if durationMs < hangoverRemainingMs then
            VadState.Voice (hangoverRemainingMs - durationMs)
          else VadState.Silence
    let v2 := { v with state := newState }
    (v2, match v2.state with | VadState.Voice _ => true | VadState.Silence => false)

/-- Method `VoiceActivityDetector::is_voice` from `src/vad.rs`. -/
def VoiceActivityDetector.isVoice (v : VoiceActivityDetector) : Bool :=
  match v.state with | VadState.Voice _ => true | VadState.Silence => false

/-! ## Retry buffer (`src/buffer.rs`) -/

/-- Struct `BufferedChunk` from `src/types.rs`: samples plus a nanosecond timestamp. -/
structure BufferedChunk where
  samples : List ℤ
  timestampNs : ℕ
  deriving DecidableEq, Repr

/-- Enum `DropPolicy` from `src/types.rs`. -/
inductive DropPolicy where
  | DropOldest : DropPolicy
  | DropNewest : DropPolicy
  | Block : DropPolicy
  deriving DecidableEq, Repr

/-- Struct `AudioBuffer` from `src/buffer.rs`.  `chunks` is the `VecDeque`, front
of the list = front of the deque (oldest chunk). -/
structure AudioBuffer where
  capacitySamples : ℕ
  dropPolicy : DropPolicy
  chunks : List BufferedChunk
  totalSamples : ℕ
  sampleRate : ℕ
  deriving DecidableEq, Repr

/-- Constructor `AudioBuffer::new` from `src/buffer.rs`: capacity =
`capacity_seconds * sample_rate`, empty deque. -/
def AudioBuffer.new (capacitySeconds : ℕ) (dropPolicy : DropPolicy) (sampleRate : ℕ) :
    AudioBuffer :=
  { capacitySamples := capacitySeconds * sampleRate
    dropPolicy := dropPolicy
    chunks := []
    totalSamples := 0
    sampleRate := sampleRate }

/-- The eviction `while` loop of `AudioBuffer::push` (`src/buffer.rs`,
lines 36–56), run with explicit fuel.  Each iteration pops one chunk
(`DropOldest` and `Block` pop the front — `Block` is unimplemented and
handled as `DropOldest` with a warning; `DropNewest` pops the back) and
subtracts its length from the running total.  The source loop runs until
`total_samples ≤ capacity_samples`; fuel equal to the number of stored
chunks bounds its iterations, because each iteration removes one chunk and
an empty deque forces `total_samples = 0` under the buffer's sum
invariant.  The `[]` cases mirror the source's `pop_front()/pop_back()`
returning `None` (unreachable under that invariant). -/
def evictLoop (policy : DropPolicy) (cap : ℕ) :
    ℕ → List BufferedChunk → ℕ → List BufferedChunk × ℕ
  | 0, chunks, total => (chunks, total)
  | fuel + 1, chunks, total =>
    if total ≤ cap then (chunks, total)
    else
      match policy with
      | DropPolicy.DropOldest | DropPolicy.Block =>
        match chunks with
        | [] => ([], total)
        | c :: rest => evictLoop policy cap fuel rest (total - c.samples.length)
      | DropPolicy.DropNewest =>
        match chunks.getLast? with
        | none => ([], total)
        | some c => evictLoop policy cap fuel chunks.dropLast (total - c.samples.length)

/-- Method `AudioBuffer::push` from `src/buffer.rs`, lines 30–57: append the
chunk, add its length to the total, then evict per policy while over
capacity. -/
def AudioBuffer.push (b : AudioBuffer) (c : BufferedChunk) : AudioBuffer :=
  let total := b.totalSamples + c.samples.length
  let chunks := b.chunks ++ [c]
  let res := evictLoop b.dropPolicy b.capacitySamples chunks.length chunks total
  { b with chunks := res.1, totalSamples := res.2 }

/-- Sum of the stored chunks' sample counts. -/
def sumSamples (chunks : List BufferedChunk) : ℕ :=
  (chunks.map (fun c => c.samples.length)).sum

/-- A sequence of `push` calls, oldest first. -/
def AudioBuffer.pushAll (b : AudioBuffer) : List BufferedChunk → AudioBuffer
  | [] => b
  | c :: cs => (b.push c).pushAll cs

/-! ## Channel processor (`src/channel_processor.rs`) -/

/-- Enum `TranscribeConnectionState` from `src/channel_processor.rs`. -/
inductive TranscribeConnectionState where
  | Disconnected : TranscribeConnectionState
  | Connected : TranscribeConnectionState
  deriving DecidableEq, Repr

/-- Struct `AudioChunk` from `src/types.rs` (the `format` field carries the
sample rate and channel count; it is not read by `process_chunk`, so it is
omitted here). -/
structure AudioChunk where
  samples : List ℤ
  timestampNs : ℕ
  deriving DecidableEq, Repr

/-- The errors `process_chunk` can propagate through `?`:
`wav_writer.write_samples(samples)?` (line 188) and
`self.reconnect_transcribe().await?` (line 231).
`disconnect_transcribe` always returns `Ok`. -/
inductive PcError where
  | wavWriteFailed : PcError
  | reconnectFailed : PcError
  deriving DecidableEq, Repr

/-- Environment of one `process_chunk` call: the outcomes of the fallible
external operations it performs, plus the loudness reading.
* `wavWriteOk` — outcome of `wav_writer.write_samples` (disk I/O);
* `reconnectOk` — outcome of `backend.start_stream()` if a reconnect is
  attempted;
* `sendOk i` — outcome of the `i`-th awaited `tx.send(..)` on the
  recognizer channel within this call (a tokio mpsc send fails exactly
  when the receiver is gone);
* `dbReading` — the RMS-in-dB loudness of the chunk computed by the VAD
  (floating-point computation abstracted, see
  `VoiceActivityDetector.process`). -/
structure PEnv where
  wavWriteOk : Bool
  reconnectOk : Bool
  sendOk : ℕ → Bool
  dbReading : ℚ

/-- The fields of `ChannelProcessor` (`src/channel_processor.rs`, lines
26–55) read or written by `process_chunk`, `reconnect_transcribe` and
`disconnect_transcribe`.  `transcribe_tx : Option<Sender<..>>` and
`transcribe_backend : Option<Box<dyn ..>>` are embedded as presence flags
(their payloads are handles with no further state visible to these
claims); the wave writer is embedded as its running sample count;
`channel_id`, `channel_name`, the TUI handle, `transcribe_rx` and the
monitor `audio_output_tx` only feed logging/display and are omitted. -/
structure ProcState where
  connectionState : TranscribeConnectionState
  transcribeTx : Bool
  transcribeBackend : Bool
  vad : VoiceActivityDetector
  buffer : AudioBuffer
  wavSamplesWritten : ℕ
  silenceDurationMs : ℕ
  silenceThresholdMs : ℕ
  bufferedSamplesDuringDisconnect : List (List ℤ)
  connectOnStartup : Bool
  sendBufferedOnReconnect : Bool
  sampleRate : ℕ
  deriving Repr

/-- Method `ChannelProcessor::reconnect_transcribe` (`src/channel_processor.rs`,
lines 371–422): no-op when already connected; otherwise, if the backend is
present, `start_stream` either installs a fresh sender/receiver pair and
marks the state `Connected`, or fails, in which case the error is returned
to the caller (the backend is put back either way).  When the backend is
absent the function returns `Ok` without connecting. -/
def reconnectTranscribe (env : PEnv) (st : ProcState) : ProcState × Option PcError :=
  if st.connectionState = TranscribeConnectionState.Connected then (st, none)
  else if st.transcribeBackend then
    if env.reconnectOk then
      ({ st with transcribeTx := true,
                 connectionState := TranscribeConnectionState.Connected }, none)
    else (st, some PcError.reconnectFailed)
  else (st, none)

/-- Method `ChannelProcessor::disconnect_transcribe` (`src/channel_processor.rs`,
lines 425–441): drop the sender, mark `Disconnected`, zero the silence
counter.  Always `Ok`. -/
def disconnectTranscribe (st : ProcState) : ProcState :=
  { st with transcribeTx := false,
            connectionState := TranscribeConnectionState.Disconnected,
            silenceDurationMs := 0 }

/-- The buffered-backlog send loop of `process_chunk` (lines 243–254):
send each backlog chunk in order; on the first failure, log and `break`
(without any state change).  Returns the attempted messages and the next
send index. -/
def sendBacklog (env : PEnv) : ℕ → List (List ℤ) → List (List ℤ) × ℕ
  | i, [] => ([], i)
  | i, b :: rest =>
    if env.sendOk i then
      let r := sendBacklog env (i + 1) rest
      (b :: r.1, r.2)
    else ([b], i + 1)

/-- Method `ChannelProcessor::process_chunk` (`src/channel_processor.rs`, lines
184–368).  Returns the post state, the list of sample vectors whose send
on `transcribe_tx` was *attempted* (in order), and the `Result`: `none`
for `Ok(())`, `some e` when the call returns `Err` via `?`.  The `?`
operators abort the rest of the body but keep all mutations made so far,
which is how Rust's `&mut self` behaves.  TUI updates and log lines are
effect-free and omitted; the final monitor-output send (lines 357–365)
only warns on failure and changes no state, so it is omitted as well.
`chunk_duration_ms = (samples.len() as f64 / sample_rate as f64 * 1000.0) as u32`
is embedded as exact `ℕ` division. -/
def processChunk (env : PEnv) (st : ProcState) (chunk : AudioChunk) :
    ProcState × List (List ℤ) × Option PcError :=
  let samples := chunk.samples
  -- 1. WAV write; `?` propagates a failure
  if env.wavWriteOk = false then (st, [], some PcError.wavWriteFailed)
  else
    let st1 := { st with wavSamplesWritten := st.wavSamplesWritten + samples.length }
    -- 2. push into the retry buffer
    let st2 := { st1 with
      buffer := st1.buffer.push { samples := samples, timestampNs := chunk.timestampNs } }
    -- 3. VAD
    match st2.vad.process samples.length env.dbReading with
    | (vad2, isVoice) =>
    let st3 := { st2 with vad := vad2 }
    -- 5. chunk duration in ms
    let chunkDurationMs := samples.length * 1000 / st3.sampleRate
    -- 6. dispatch on (is_voice, connection_state)
    match isVoice, st3.connectionState with
    | true, TranscribeConnectionState.Disconnected =>
      -- voice while disconnected: reconnect (`?`), optionally replay backlog,
      -- clear backlog, send current chunk, reset silence counter
      match reconnectTranscribe env st3 with
      | (st4, some e) => (st4, [], some e)
      | (st4, none) =>
        match (if st4.sendBufferedOnReconnect ∧ st4.bufferedSamplesDuringDisconnect ≠ [] then
                 (if st4.transcribeTx then sendBacklog env 0 st4.bufferedSamplesDuringDisconnect
                  else ([], 0))
               else ([], 0)) with
        | (backlogMsgs, nextIdx) =>
          let st5 := { st4 with bufferedSamplesDuringDisconnect := [] }
          if st5.transcribeTx then
            if env.sendOk nextIdx then
              ({ st5 with silenceDurationMs := 0 }, backlogMsgs ++ [samples], none)
            else
              ({ st5 with transcribeTx := false,
                          connectionState := TranscribeConnectionState.Disconnected,
                          silenceDurationMs := 0 }, backlogMsgs ++ [samples], none)
          else ({ st5 with silenceDurationMs := 0 }, backlogMsgs, none)
    | true, TranscribeConnectionState.Connected =>
      -- voice while connected: reset silence counter, send the chunk
      let st4 := { st3 with silenceDurationMs := 0 }
      if st4.transcribeTx then
        if env.sendOk 0 then (st4, [samples], none)
        else ({ st4 with transcribeTx := false,
                         connectionState := TranscribeConnectionState.Disconnected },
              [samples], none)
      else (st4, [], none)
    | false, TranscribeConnectionState.Connected =>
      -- silence while connected: accumulate; disconnect at the threshold,
      -- otherwise forward a zero chunk of the same length
      let newSilence := st3.silenceDurationMs + chunkDurationMs
      let st4 := { st3 with silenceDurationMs := newSilence }
      if st4.silenceThresholdMs ≤ newSilence then
        (disconnectTranscribe st4, [], none)
      else if st4.transcribeTx then
        (if env.sendOk 0 then (st4, [List.replicate samples.length 0], none)
         else ({ st4 with transcribeTx := false,
                          connectionState := TranscribeConnectionState.Disconnected },
               [List.replicate samples.length 0], none))
      else (st4, [], none)
    | false, TranscribeConnectionState.Disconnected =>
      -- silence while disconnected: nothing (no backlog accumulation)
      (st3, [], none)

/-- Constructor `ChannelProcessor::new` (`src/channel_processor.rs`, lines 58–128),
restricted to the embedded fields: freshly constructed state. -/
def initProcState (vadThresholdDb : ℚ) (hangoverDurationMs : ℕ)
    (silenceDisconnectThresholdMs : ℕ) (bufferCapacitySeconds : ℕ)
    (dropPolicy : DropPolicy) (connectOnStartup sendBufferedOnReconnect : Bool)
    (sampleRate : ℕ) : ProcState :=
  { connectionState := TranscribeConnectionState.Disconnected
    transcribeTx := false
    transcribeBackend := true
    vad := { thresholdDb := vadThresholdDb
             hangoverDurationMs := hangoverDurationMs
             state := VadState.Silence
             sampleRate := sampleRate }
    buffer := AudioBuffer.new bufferCapacitySeconds dropPolicy sampleRate
    wavSamplesWritten := 0
    silenceDurationMs := 0
    silenceThresholdMs := silenceDisconnectThresholdMs
    bufferedSamplesDuringDisconnect := []
    connectOnStartup := connectOnStartup
    sendBufferedOnReconnect := sendBufferedOnReconnect
    sampleRate := sampleRate }

/-- A sequence of `process_chunk` calls; collects every attempted
recognizer send across the calls, in order.  Errors returned by one call
do not stop the driver loop from delivering the next chunk (and the claim
over traces is only strengthened by also covering that behavior). -/
def runChunks (st : ProcState) : List (PEnv × AudioChunk) → ProcState × List (List ℤ)
  | [] => (st, [])
  | (env, c) :: rest =>
    let r := processChunk env st c
    let r2 := runChunks r.1 rest
    (r2.1, r.2.1 ++ r2.2)

/-! ## Theorems for claims C1, C2, C4, C7: `process_chunk` -/

/-- Method `process_chunk` never appends to `buffered_samples_during_disconnect`:
if the backlog is empty before a call it is empty after it (in every
branch, including the error returns). -/
theorem processChunk_buffered_empty (env : PEnv) (st : ProcState) (chunk : AudioChunk)
    (hb : st.bufferedSamplesDuringDisconnect = []) :
    (processChunk env st chunk).1.bufferedSamplesDuringDisconnect = [] := by
  obtain ⟨cs, tx, bk, vad, buf, wav, sil, thr, bufd, cosu, sbr, rate⟩ := st
  simp only at hb
  subst hb
  unfold processChunk reconnectTranscribe disconnectTranscribe
  by_cases hw : env.wavWriteOk = false
  · simp [hw]
  · simp only [hw, if_false]
    rcases hv : vad.process chunk.samples.length env.dbReading with ⟨vad2, isV⟩
    simp only [hv]
    cases isV <;> cases cs <;> repeat' split
    all_goals try simp_all
    all_goals try (split_ifs at * <;> simp_all)
    all_goals (rename_i heq; rw [← heq.1])

set_option maxHeartbeats 1000000 in
/-- With an empty backlog, the `send_buffered_on_reconnect` flag has no
effect on one `process_chunk` call: the result is the same up to the value
of the flag field itself. -/
theorem processChunk_flag_indep (env : PEnv) (st : ProcState) (chunk : AudioChunk)
    (hb : st.bufferedSamplesDuringDisconnect = []) (b : Bool) :
    processChunk env { st with sendBufferedOnReconnect := b } chunk =
      ({ (processChunk env st chunk).1 with sendBufferedOnReconnect := b },
       (processChunk env st chunk).2) := by
  obtain ⟨cs, tx, bk, vad, buf, wav, sil, thr, bufd, cosu, sbr, rate⟩ := st
  simp only at hb
  subst hb
  unfold processChunk
  by_cases hw : env.wavWriteOk = false
  · simp [hw]
  · simp only [hw, if_false]
    rcases hv : vad.process chunk.samples.length env.dbReading with ⟨vad2, isV⟩
    simp only [hv]
    cases isV <;> cases cs <;>
      by_cases hbk : bk = true <;>
        by_cases hrc : env.reconnectOk = true <;>
          simp [reconnectTranscribe, disconnectTranscribe, hbk, hrc] <;>
            split_ifs <;>
              simp_all

/-- The empty backlog persists over any sequence of `process_chunk` calls. -/
theorem runChunks_buffered_empty (trace : List (PEnv × AudioChunk)) :
    ∀ st : ProcState, st.bufferedSamplesDuringDisconnect = [] →
      (runChunks st trace).1.bufferedSamplesDuringDisconnect = [] := by
  induction trace with
  | nil => intro st hb; exact hb
  | cons p rest ih =>
    intro st hb
    rcases p with ⟨env, c⟩
    simp only [runChunks]
    exact ih _ (processChunk_buffered_empty env st c hb)

/-- With an empty backlog, the flag is irrelevant over whole traces. -/
theorem runChunks_flag_indep (trace : List (PEnv × AudioChunk)) :
    ∀ (st : ProcState), st.bufferedSamplesDuringDisconnect = [] → ∀ (b : Bool),
      runChunks { st with sendBufferedOnReconnect := b } trace =
        ({ (runChunks st trace).1 with sendBufferedOnReconnect := b },
         (runChunks st trace).2) := by
  induction trace with
  | nil => intro st hb b; rfl
  | cons p rest ih =>
    intro st hb b
    rcases p with ⟨env, c⟩
    simp only [runChunks]
    rw [processChunk_flag_indep env st c hb b]
    simp only []
    rw [ih (processChunk env st c).1 (processChunk_buffered_empty env st c hb) b]

/-- C2: on a freshly constructed `ChannelProcessor`,
`buffered_samples_during_disconnect` stays empty over every sequence of
`process_chunk` calls (no branch appends to it), and the
`send_buffered_on_reconnect` configuration flag has no effect on the
samples sent to the recognizer over the whole trace. -/
theorem backlog_empty_flag_irrelevant (thr : ℚ) (hang silThr capS : ℕ)
    (pol : DropPolicy) (cos : Bool) (rate : ℕ) (trace : List (PEnv × AudioChunk)) :
    (∀ b : Bool,
      (runChunks (initProcState thr hang silThr capS pol cos b rate)
          trace).1.bufferedSamplesDuringDisconnect = []) ∧
    (runChunks (initProcState thr hang silThr capS pol cos true rate) trace).2 =
      (runChunks (initProcState thr hang silThr capS pol cos false rate) trace).2 := by
  constructor
  · intro b
    exact runChunks_buffered_empty trace _ rfl
  · have h : initProcState thr hang silThr capS pol cos true rate =
        { initProcState thr hang silThr capS pol cos false rate with
          sendBufferedOnReconnect := true } := rfl
    rw [h, runChunks_flag_indep trace _ rfl true]

/-- C1 (amended): `process_chunk` returns `Ok` for every state and chunk
*provided* the wave-file write and any reconnect attempt succeed; send
failures are always absorbed.  (The claim as frozen — `Ok` under *all*
internal failures — is refuted by `processChunk_reconnect_propagates`:
wave-write and reconnect failures propagate through `?`.) -/
theorem processChunk_ok_of_env_ok (env : PEnv) (st : ProcState) (chunk : AudioChunk)
    (hw : env.wavWriteOk = true) (hr : env.reconnectOk = true) :
    (processChunk env st chunk).2.2 = none := by
  obtain ⟨cs, tx, bk, vad, buf, wav, sil, thr, bufd, cosu, sbr, rate⟩ := st
  unfold processChunk reconnectTranscribe disconnectTranscribe
  simp only [hw, Bool.true_eq_false, if_false]
  rcases hv : vad.process chunk.samples.length env.dbReading with ⟨vad2, isV⟩
  simp only [hv]
  cases isV <;> cases cs <;> repeat' split
  all_goals try simp_all
  all_goals (split_ifs at * <;> simp_all)

/-- An environment in which every external operation succeeds. -/
def envAllOk : PEnv :=
  { wavWriteOk := true, reconnectOk := true, sendOk := fun _ => true, dbReading := 0 }

/-- An environment in which `backend.start_stream()` fails (for example a
network error towards the recognizer) and everything else succeeds. -/
def envReconnectFail : PEnv :=
  { wavWriteOk := true, reconnectOk := false, sendOk := fun _ => true, dbReading := 0 }

/-- A small voice chunk (its 0 dB reading is above the −40 dB threshold). -/
def chunkVoiceSmall : AudioChunk := { samples := [1000, 1000], timestampNs := 0 }

/-- A freshly constructed processor: threshold −40 dB, hangover 500 ms,
silence-disconnect threshold 10 s, buffer 30 s, 16 kHz,
`connect_on_startup = false`, `send_buffered_on_reconnect = true` (the
values of the shipped test configuration). -/
def stFresh : ProcState :=
  initProcState (-40) 500 10000 30 DropPolicy.DropOldest false true 16000

set_option maxRecDepth 4000 in
/-- C1 (counterexample): on a freshly constructed processor, a voice chunk
arriving while disconnected with a failing `start_stream` makes
`process_chunk` return `Err` — the reconnect failure is propagated to the
caller through `?` (line 231 of `src/channel_processor.rs`), not reduced
to a state change. -/
theorem processChunk_reconnect_propagates :
    (processChunk envReconnectFail stFresh chunkVoiceSmall).2.2 =
      some PcError.reconnectFailed := by decide

/-- Witness for the amended C1 at a concrete state, chunk and environment. -/
theorem processChunk_ok_of_env_ok_witness :
    envAllOk.wavWriteOk = true ∧ envAllOk.reconnectOk = true ∧
      (processChunk envAllOk stFresh chunkVoiceSmall).2.2 = none :=
  ⟨rfl, rfl, processChunk_ok_of_env_ok envAllOk stFresh chunkVoiceSmall rfl rfl⟩

/-- C7: whenever `process_chunk` attempts a send to the recognizer (the
current chunk or a silence-keepalive zero chunk; with the in-silence
backlog empty, which `processChunk_buffered_empty` shows is invariant) and
that send fails, the same call ends with the session `Disconnected` and
the sender dropped. -/
theorem failed_send_disconnects (env : PEnv) (st : ProcState) (chunk : AudioChunk)
    (hb : st.bufferedSamplesDuringDisconnect = [])
    (hsend : env.sendOk 0 = false)
    (hatt : (processChunk env st chunk).2.1 ≠ []) :
    (processChunk env st chunk).1.connectionState = TranscribeConnectionState.Disconnected ∧
      (processChunk env st chunk).1.transcribeTx = false := by
  obtain ⟨cs, tx, bk, vad, buf, wav, sil, thr, bufd, cosu, sbr, rate⟩ := st
  simp only at hb
  subst hb
  unfold processChunk reconnectTranscribe disconnectTranscribe at *
  by_cases hw : env.wavWriteOk = false
  · simp [hw] at hatt
  · simp only [hw, if_false] at hatt ⊢
    rcases hv : vad.process chunk.samples.length env.dbReading with ⟨vad2, isV⟩
    simp only [hv] at hatt ⊢
    cases isV <;> cases cs <;> revert hatt <;> repeat' split
    all_goals try simp_all
    all_goals try (split_ifs at * <;> simp_all)
    all_goals (rename_i heq; subst heq; simp_all)

/-- An environment in which every recognizer send fails (receiver gone). -/
def envSendFail : PEnv :=
  { wavWriteOk := true, reconnectOk := true, sendOk := fun _ => false, dbReading := 0 }

/-- A connected processor owning a live sender. -/
def stConnectedTx : ProcState :=
  { stFresh with connectionState := TranscribeConnectionState.Connected,
                 transcribeTx := true }

set_option maxRecDepth 4000 in
/-- Witness for C7: a concrete connected state whose send fails. -/
theorem failed_send_disconnects_witness :
    stConnectedTx.bufferedSamplesDuringDisconnect = [] ∧
      envSendFail.sendOk 0 = false ∧
      (processChunk envSendFail stConnectedTx chunkVoiceSmall).2.1 ≠ [] ∧
      ((processChunk envSendFail stConnectedTx chunkVoiceSmall).1.connectionState =
          TranscribeConnectionState.Disconnected ∧
        (processChunk envSendFail stConnectedTx chunkVoiceSmall).1.transcribeTx = false) :=
  ⟨rfl, rfl, by decide,
   failed_send_disconnects envSendFail stConnectedTx chunkVoiceSmall rfl rfl (by decide)⟩

/-- The content of claim C4 at one `process_chunk` call: for a
silence-classified chunk in the `Connected` state, the disconnect fires
exactly when the accumulated silence first reaches the threshold
(`silence_ms + d ≥ silence_disconnect_threshold_ms`); below the threshold
a zero chunk of the same length is forwarded instead and the counter
advances by the chunk duration; while `Disconnected`, silence accumulates
nothing and sends nothing; and every voice-classified chunk that completes
without error resets the counter to 0. -/
def SilenceDisconnectClaim (env : PEnv) (st : ProcState) (chunk : AudioChunk) : Prop :=
  let d := chunk.samples.length * 1000 / st.sampleRate
  let r := processChunk env st chunk
  let voiceFlag := (st.vad.process chunk.samples.length env.dbReading).2
  (voiceFlag = false → st.connectionState = TranscribeConnectionState.Connected →
    ((r.1.connectionState = TranscribeConnectionState.Disconnected ↔
        st.silenceThresholdMs ≤ st.silenceDurationMs + d) ∧
     (st.silenceThresholdMs ≤ st.silenceDurationMs + d →
        r.1.transcribeTx = false ∧ r.1.silenceDurationMs = 0 ∧ r.2.1 = []) ∧
     (st.silenceDurationMs + d < st.silenceThresholdMs →
        r.1.silenceDurationMs = st.silenceDurationMs + d ∧
          r.2.1 = if st.transcribeTx then [List.replicate chunk.samples.length 0] else []))) ∧
  (voiceFlag = false → st.connectionState = TranscribeConnectionState.Disconnected →
    r.1.silenceDurationMs = st.silenceDurationMs ∧ r.2.1 = [] ∧
      r.1.connectionState = TranscribeConnectionState.Disconnected) ∧
  (voiceFlag = true → r.2.2 = none → r.1.silenceDurationMs = 0)

/-- C4: the silence-disconnect of `process_chunk` triggers exactly at the
threshold, a below-threshold silent chunk forwards a zero chunk of the
same length instead, no silence accumulates while `Disconnected`, and
voice chunks reset the counter (stated under a successful wave write and a
successful send; a failed send changes the connection state for its own
reason, covered by C7). -/
theorem silence_disconnect_exact (env : PEnv) (st : ProcState) (chunk : AudioChunk)
    (hw : env.wavWriteOk = true) (hsend : env.sendOk 0 = true) :
    SilenceDisconnectClaim env st chunk := by
  obtain ⟨cs, tx, bk, vad, buf, wav, sil, thr, bufd, cosu, sbr, rate⟩ := st
  unfold SilenceDisconnectClaim processChunk reconnectTranscribe disconnectTranscribe
  simp only [hw, Bool.true_eq_false, if_false]
  rcases hv : vad.process chunk.samples.length env.dbReading with ⟨vad2, isV⟩
  simp only [hv]
  cases isV <;> cases cs <;> repeat' split
  all_goals try simp_all

/-- A quiet environment: the −50 dB reading is below the −40 dB threshold. -/
def envQuiet : PEnv :=
  { wavWriteOk := true, reconnectOk := true, sendOk := fun _ => true, dbReading := -50 }

/-- Witness for C4 at a concrete connected state and a silent chunk. -/
theorem silence_disconnect_exact_witness :
    envQuiet.wavWriteOk = true ∧ envQuiet.sendOk 0 = true ∧
      SilenceDisconnectClaim envQuiet stConnectedTx chunkVoiceSmall :=
  ⟨rfl, rfl, silence_disconnect_exact envQuiet stConnectedTx chunkVoiceSmall rfl rfl⟩

/-! ## Recognizer session framer (`src/aws_transcribe.rs`, `start_stream`) -/

/-- The `0.15`-second initial frame target from `src/aws_transcribe.rs`
line 101: `(sample_rate as f64 * 0.15) as usize`, embedded as exact `ℕ`
arithmetic `15 * S / 100` (the `f64` computation agrees with this for
every real sample rate; the rounding error of the `f64` literal `0.15` is
orders of magnitude below the truncation granularity). -/
def initialMinSamples (sampleRate : ℕ) : ℕ := 15 * sampleRate / 100

/-- The `0.2`-second steady frame target from `src/aws_transcribe.rs`
line 100: `(sample_rate as f64 * 0.2) as usize`, embedded as `20 * S / 100`
(same remark as `initialMinSamples`). -/
def maxSamplesTarget (sampleRate : ℕ) : ℕ := 20 * sampleRate / 100

/-- The framer's mutable state inside the `input_stream` generator of
`AwsTranscribeBackend::start_stream` (`src/aws_transcribe.rs`, lines
97–186): the PCM accumulator and the count of target-sized frames drained
so far. -/
structure FramerState where
  pcmBuffer : List ℤ
  chunkCount : ℕ
  deriving DecidableEq, Repr

/-- One observable event of the framer loop: a received sample vector
(`Ok(Some(samples))`), a 100 ms receive timeout (`Err(_)`), or channel
closure (`Ok(None)`). -/
inductive FramerEvent where
  | recv (samples : List ℤ) : FramerEvent
  | timeout : FramerEvent
  | closed : FramerEvent
  deriving DecidableEq, Repr

/-- One iteration of the framer loop (`src/aws_transcribe.rs`, lines
108–185).  Returns the new state, the list of target-sized frames drained
in this step (`pcm_buffer.drain(..min_samples.min(pcm_buffer.len()))`,
which also bumps `chunk_count`), and the list of flush frames (timeout and
close flushes, which do not touch `chunk_count`).  The frames collected
here are the drained PCM slices; FLAC encoding of a slice happens
afterwards and an encode failure only drops that already-drained slice. -/
def framerStep (sampleRate : ℕ) (st : FramerState) : FramerEvent →
    FramerState × List (List ℤ) × List (List ℤ)
  | FramerEvent.recv samples =>
    let buf := st.pcmBuffer ++ samples
    let minSamples :=
      if st.chunkCount < 5 then initialMinSamples sampleRate else maxSamplesTarget sampleRate
    if minSamples ≤ buf.length then
      let drainCount := min minSamples buf.length
      ({ pcmBuffer := buf.drop drainCount, chunkCount := st.chunkCount + 1 },
       [buf.take drainCount], [])
    else ({ st with pcmBuffer := buf }, [], [])
  | FramerEvent.timeout =>
    if st.pcmBuffer = [] then (st, [], [])
    else ({ st with pcmBuffer := [] }, [], [st.pcmBuffer])
  | FramerEvent.closed =>
    if st.pcmBuffer = [] then (st, [], [])
    else ({ st with pcmBuffer := [] }, [], [st.pcmBuffer])

/-- Run the framer loop from a given state over a list of events,
accumulating target frames and flush frames separately. -/
def framerRunFrom (sampleRate : ℕ) (st : FramerState) :
    List FramerEvent → FramerState × List (List ℤ) × List (List ℤ)
  | [] => (st, [], [])
  | ev :: rest =>
    let r := framerStep sampleRate st ev
    let r2 := framerRunFrom sampleRate r.1 rest
    (r2.1, r.2.1 ++ r2.2.1, r.2.2 ++ r2.2.2)

/-- Run the framer from the state of a freshly opened session
(`pcm_buffer` empty, `chunk_count = 0`, lines 98 and 102). -/
def framerRun (sampleRate : ℕ) (evs : List FramerEvent) :
    FramerState × List (List ℤ) × List (List ℤ) :=
  framerRunFrom sampleRate { pcmBuffer := [], chunkCount := 0 } evs

/-! ## Theorems for claim C6: adaptive frame sizes -/

/-- Normal form of a `recv` step: when the accumulator reaches the current
target the drained slice is exactly the target (`min target len = target`). -/
theorem framerStep_recv (S : ℕ) (st : FramerState) (samples : List ℤ) :
    framerStep S st (FramerEvent.recv samples) =
      (if (if st.chunkCount < 5 then initialMinSamples S else maxSamplesTarget S) ≤
          (st.pcmBuffer ++ samples).length then
        ({ pcmBuffer := List.drop
              (if st.chunkCount < 5 then initialMinSamples S else maxSamplesTarget S)
              (st.pcmBuffer ++ samples),
           chunkCount := st.chunkCount + 1 },
         [List.take (if st.chunkCount < 5 then initialMinSamples S else maxSamplesTarget S)
              (st.pcmBuffer ++ samples)], [])
      else ({ st with pcmBuffer := st.pcmBuffer ++ samples }, [], [])) := by
  simp only [framerStep]
  split <;> split
  all_goals first
    | (rename_i hc; rw [min_eq_left hc])
    | rfl

/-- Run invariant: `chunk_count` counts the target-sized frames drained so
far, and the `i`-th target frame (counting from the session start offset)
has the initial size below five frames and the steady size afterwards. -/
theorem framerRunFrom_frames (S : ℕ) (evs : List FramerEvent) :
    ∀ st : FramerState,
      (framerRunFrom S st evs).1.chunkCount =
          st.chunkCount + (framerRunFrom S st evs).2.1.length ∧
        (framerRunFrom S st evs).2.1.map List.length =
          (List.range (framerRunFrom S st evs).2.1.length).map
            (fun i => if st.chunkCount + i < 5 then initialMinSamples S
                      else maxSamplesTarget S) := by
  induction evs with
  | nil => intro st; simp [framerRunFrom]
  | cons ev rest ih =>
    intro st
    cases ev with
    | recv samples =>
      simp only [framerRunFrom, framerStep_recv]
      by_cases hc : (if st.chunkCount < 5 then initialMinSamples S else maxSamplesTarget S) ≤
          (st.pcmBuffer ++ samples).length
      · simp only [if_pos hc]
        obtain ⟨ih1, ih2⟩ := ih ⟨List.drop
            (if st.chunkCount < 5 then initialMinSamples S else maxSamplesTarget S)
            (st.pcmBuffer ++ samples), st.chunkCount + 1⟩
        simp only at ih1 ih2
        refine ⟨?_, ?_⟩
        · simp only [List.singleton_append, List.length_cons, ih1]
          omega
        · simp only [List.singleton_append, List.map_cons, List.length_cons,
            List.length_take, ih2]
          rw [List.range_succ_eq_map]
          simp only [List.map_cons, List.map_map, Nat.add_zero, min_eq_left hc]
          refine List.cons_eq_cons.mpr ⟨rfl, ?_⟩
          apply List.map_congr_left
          intro i _
          simp only [Function.comp_apply]
          have h5 : st.chunkCount + 1 + i = st.chunkCount + Nat.succ i := by omega
          rw [h5]
      · simp only [if_neg hc]
        obtain ⟨ih1, ih2⟩ := ih ⟨st.pcmBuffer ++ samples, st.chunkCount⟩
        simp only at ih1 ih2
        simpa using ⟨ih1, ih2⟩
    | timeout =>
      simp only [framerRunFrom, framerStep]
      split
      · rcases ih st with ⟨ih1, ih2⟩
        simpa using ⟨ih1, ih2⟩
      · obtain ⟨ih1, ih2⟩ := ih ⟨[], st.chunkCount⟩
        simp only at ih1 ih2
        simpa using ⟨ih1, ih2⟩
    | closed =>
      simp only [framerRunFrom, framerStep]
      split
      · rcases ih st with ⟨ih1, ih2⟩
        simpa using ⟨ih1, ih2⟩
      · rcases ih { st with pcmBuffer := [] } with ⟨ih1, ih2⟩
        simp only at ih1 ih2
        simpa using ⟨ih1, ih2⟩


/-- C6: over any event sequence of a freshly opened session, the `i`-th
target-sized frame drained by the framer has exactly `0.15 × S` samples
for `i < 5` and exactly `0.2 × S` samples afterwards; and a `recv` step
drains a frame precisely when the accumulator has reached the current
target (timeout and close flushes are collected separately and do not
advance `chunk_count`). -/
theorem framer_adaptive_frame_sizes (S : ℕ) (evs : List FramerEvent) :
    ((framerRun S evs).2.1.map List.length =
      (List.range (framerRun S evs).2.1.length).map
        (fun i => if i < 5 then initialMinSamples S else maxSamplesTarget S)) ∧
    (∀ st : FramerState, ∀ samples : List ℤ,
      ((framerStep S st (FramerEvent.recv samples)).2.1 ≠ [] ↔
        (if st.chunkCount < 5 then initialMinSamples S else maxSamplesTarget S) ≤
          (st.pcmBuffer ++ samples).length)) := by
  constructor
  · have h := (framerRunFrom_frames S evs ⟨[], 0⟩).2
    simpa [framerRun] using h
  · intro st samples
    rw [framerStep_recv]
    by_cases hc : (if st.chunkCount < 5 then initialMinSamples S else maxSamplesTarget S) ≤
        (st.pcmBuffer ++ samples).length
    · rw [if_pos hc]
      simpa using hc
    · rw [if_neg hc]
      simpa using hc


/-! ## Stability computation (`src/aws_transcribe.rs`, lines 239–264) -/

/-- Enum `Stability` from `src/types.rs`. -/
inductive Stability where
  | Low : Stability
  | Medium : Stability
  | High : Stability
  deriving DecidableEq, Repr

/-- The per-token data read by the stability computation: the AWS `Item`'s
optional `stable` flag (`item.stable.unwrap_or(false)`). -/
structure TranscriptItem where
  stable : Option Bool
  deriving DecidableEq, Repr

/-- The stability computation in `AwsTranscribeBackend::start_stream`
(`src/aws_transcribe.rs`, lines 239–264): only for partial results, and
only when the alternative carries an item list; an empty item list is
`Low`; otherwise the fraction of stable items decides
(`≥ 0.8 → High`, `≥ 0.4 → Medium`, else `Low`).  The `f64` ratio is
embedded as an exact `ℚ` (the thresholds `0.8`/`0.4` are `4/5`/`2/5`;
for any ratio expressible with a denominator below ~10¹⁵ the `f64`
comparison agrees with the exact one). -/
def computeStability (partialFlag : Bool) (items : Option (List TranscriptItem)) :
    Option Stability :=
  if partialFlag then
    items.map (fun its =>
      let total := its.length
      if total = 0 then Stability.Low
      else
        let stableCount := (its.filter (fun item => item.stable.getD false)).length
        let stableRatio : ℚ := (stableCount : ℚ) / (total : ℚ)
        if 4 / 5 ≤ stableRatio then Stability.High
        else if 2 / 5 ≤ stableRatio then Stability.Medium
        else Stability.Low)
  else none

/-- The fraction of stable items, following the words of the spec
(§3: "derived from the fraction of stable tokens"). -/
def stableFraction (its : List TranscriptItem) : ℚ :=
  ((its.filter (fun item => item.stable.getD false)).length : ℚ) / (its.length : ℚ)

/-- Stability per the spec's words (spec §3 / claim C8): present exactly
for partial results with an item list; empty list `Low`; fraction ≥ 0.8
`High`, ≥ 0.4 `Medium`, else `Low`. -/
def stabilitySpec (partialFlag : Bool) (items : Option (List TranscriptItem)) :
    Option Stability :=
  if partialFlag then
    items.map (fun its =>
      if its = [] then Stability.Low
      else if 4 / 5 ≤ stableFraction its then Stability.High
      else if 2 / 5 ≤ stableFraction its then Stability.Medium
      else Stability.Low)
  else none

/-! ## Theorem for claim C8: stability levels -/

/-- C8: the stability attached to a decomposed recognition result equals
the spec's description — present exactly for partial results that carry an
item list (absent item list: no stability; `is_partial = false`: no
stability), an empty item list giving `Low`, and otherwise the stable
fraction deciding `High` (≥ 0.8) / `Medium` (≥ 0.4) / `Low`. -/
theorem stability_matches_spec (p : Bool) (items : Option (List TranscriptItem)) :
    computeStability p items = stabilitySpec p items ∧
      ((computeStability p items).isSome ↔ p = true ∧ items.isSome = true) := by
  constructor
  · unfold computeStability stabilitySpec stableFraction
    cases p <;> cases items <;> simp
  · cases p <;> cases items <;> simp [computeStability]


/-! ## Capture callback (`src/audio_input.rs`, `build_stream`) -/

/-- Truncation toward zero, the semantics of Rust's `as i16` cast from a
float whose value fits in the target range. -/
def ratTruncToInt (q : ℚ) : ℤ :=
  if 0 ≤ q then ⌊q⌋ else -⌊-q⌋

/-- Per-sample conversion in the capture callback (`src/audio_input.rs`,
lines 139–142): `to_float_sample()` then `clamp(-1.0, 1.0)` then
`* i16::MAX as f32` then `as i16`.  The native sample value is taken
after `to_float_sample()` as an exact `ℚ` (for `f32` devices that
conversion is the identity); the `f32` multiply is embedded as exact
rational arithmetic. -/
def convertSample (f : ℚ) : ℤ :=
  let clamped := max (-1 : ℚ) (min 1 f)
  ratTruncToInt (clamped * 32767)

/-- A chunk as assembled by the capture callback (`src/audio_input.rs`,
lines 148–155): mono samples at the stream sample rate with the shared
callback timestamp. -/
structure CaptureChunk where
  samples : List ℤ
  sampleRate : ℕ
  channels : ℕ
  timestampNs : ℕ
  deriving DecidableEq, Repr

/-- The data callback of `AudioInput::build_stream` (`src/audio_input.rs`,
lines 118–172).  `data` is the interleaved input frame after
`to_float_sample()` (see `convertSample`); `ts` is the timestamp captured
once on entry.  For each channel `ch` below both `num_channels` and the
number of senders (the loop breaks at `ch ≥ channel_senders.len()`), the
callback extracts `samples_per_channel = data.len() / num_channels`
samples at stride `num_channels`, offset `ch` (guarded by
`idx < data.len()`), converts each to `i16`, and offers the resulting
chunk to that channel's queue with `try_send` (whose `Full`/`Closed`
failures only log).  Returns the offered `(channel, chunk)` pairs in
order. -/
def captureCallback (numChannels numSenders sampleRate : ℕ) (data : List ℚ) (ts : ℕ) :
    List (ℕ × CaptureChunk) :=
  let samplesPerChannel := data.length / numChannels
  (List.range (min numChannels numSenders)).map (fun ch =>
    let channelSamples :=
      (List.range samplesPerChannel).filterMap (fun frame =>
        ((data.get? (frame * numChannels + ch)).map convertSample))
    (ch, { samples := channelSamples
           sampleRate := sampleRate
           channels := 1
           timestampNs := ts }))

/-! ## Theorems for claim C9: capture demultiplexing -/

/-- The content of claim C9: with `K` channels and `K` senders, a frame of
`N × K` interleaved samples makes the callback offer exactly one chunk per
channel — channel `c` getting the `N` converted samples at stride `K`,
offset `c` — and every offered chunk carries the single timestamp taken at
callback entry. -/
def CaptureClaim (numChannels frames sampleRate : ℕ) (data : List ℚ) (ts : ℕ) : Prop :=
  captureCallback numChannels numChannels sampleRate data ts =
    (List.range numChannels).map (fun ch =>
      (ch, { samples := (List.range frames).map
                (fun frame => convertSample (data.getD (frame * numChannels + ch) 0))
             sampleRate := sampleRate
             channels := 1
             timestampNs := ts })) ∧
  ∀ p ∈ captureCallback numChannels numChannels sampleRate data ts,
    p.2.samples.length = frames ∧ p.2.timestampNs = ts

/-- C9: the capture callback splits every `N × K` interleaved frame into
one `N`-sample int16 chunk per channel (clamped/scaled conversion per
sample), all chunks sharing the entry timestamp. -/
theorem capture_callback_demux (numChannels frames sampleRate ts : ℕ) (data : List ℚ)
    (hK : 0 < numChannels) (hlen : data.length = frames * numChannels) :
    CaptureClaim numChannels frames sampleRate data ts := by
  have hspc : data.length / numChannels = frames := by
    rw [hlen]
    exact Nat.mul_div_cancel frames hK
  have hmain : captureCallback numChannels numChannels sampleRate data ts =
      (List.range numChannels).map (fun ch =>
        (ch, { samples := (List.range frames).map
                  (fun frame => convertSample (data.getD (frame * numChannels + ch) 0))
               sampleRate := sampleRate
               channels := 1
               timestampNs := ts })) := by
    unfold captureCallback
    rw [hspc, Nat.min_self]
    apply List.map_congr_left
    intro ch hch
    have hch2 : ch < numChannels := List.mem_range.mp hch
    have hsam : (List.range frames).filterMap
        (fun frame => (data.get? (frame * numChannels + ch)).map convertSample) =
        (List.range frames).map
          (fun frame => convertSample (data.getD (frame * numChannels + ch) 0)) := by
      have hpt : ∀ frame ∈ List.range frames,
          (data.get? (frame * numChannels + ch)).map convertSample =
            some (convertSample (data.getD (frame * numChannels + ch) 0)) := by
        intro frame hf
        have hf2 : frame < frames := List.mem_range.mp hf
        have hidx : frame * numChannels + ch < data.length := by
          rw [hlen]
          have h1 : (frame + 1) * numChannels ≤ frames * numChannels :=
            Nat.mul_le_mul_right numChannels hf2
          rw [Nat.succ_mul] at h1
          omega
        rcases hg : data.get? (frame * numChannels + ch) with _ | v
        · rw [List.get?_eq_none] at hg
          omega
        · have hgd : data.getD (frame * numChannels + ch) 0 = v := by
            simp only [List.getD_eq_getElem?_getD, ← List.get?_eq_getElem?, hg]
            rfl
          rw [hgd]
          rfl
      exact List.filterMap_eq_map_iff_forall_eq_some.mpr hpt
    rw [hsam]
  constructor
  · exact hmain
  · intro p hp
    rw [hmain] at hp
    simp only [List.mem_map, List.mem_range] at hp
    rcases hp with ⟨ch, hch, rfl⟩
    simp


/-- Witness for C9: the 2-channel frame `[2, -2, 1/2, 1/2]` at timestamp 7. -/
theorem capture_callback_demux_witness :
    0 < 2 ∧ ([2, -2, 1/2, 1/2] : List ℚ).length = 2 * 2 ∧
      CaptureClaim 2 2 16000 [2, -2, 1/2, 1/2] 7 :=
  ⟨by decide, by decide,
   capture_callback_demux 2 2 16000 7 [2, -2, 1/2, 1/2] (by decide) (by decide)⟩


/-! ## Filler-word removal (`src/channel_processor.rs`, lines 516–553)

Strings are embedded as `List Char` (Rust operates on UTF-8 byte indices,
but every index it uses lies on a character boundary — `replace` matches
whole substrings, and the prefix/suffix strips cut at the matched filler's
length — so the character-level view is exact). -/

/-- The Unicode `White_Space` code points, the set trimmed by Rust's
`str::trim`. -/
def rustWhitespaceChars : List Char :=
  [' ', '\t', '\n', '\u000B', '\u000C', '\r', '\u0085', ' ', ' ',
   ' ', ' ', ' ', ' ', ' ', ' ', ' ',
   ' ', ' ', ' ', ' ', ' ', ' ', ' ',
   ' ', '　']

/-- Whether a character is whitespace in the sense of `char::is_whitespace`. -/
def isRustWhitespace (c : Char) : Bool :=
  rustWhitespaceChars.contains c

/-- Predicate `str::starts_with` on character lists. -/
def startsWithSeq : List Char → List Char → Bool
  | [], _ => true
  | _ :: _, [] => false
  | p :: ps, c :: cs => p == c && startsWithSeq ps cs

/-- Predicate `str::ends_with` on character lists. -/
def endsWithSeq (pat s : List Char) : Bool :=
  startsWithSeq pat.reverse s.reverse

/-- Predicate `str::contains` (substring search) on character lists. -/
def containsSeq (pat : List Char) : List Char → Bool
  | [] => startsWithSeq pat []
  | c :: cs => startsWithSeq pat (c :: cs) || containsSeq pat cs

/-- Operation `str::replace(pat, repl)`: replace every non-overlapping occurrence,
scanning left to right and continuing after each replacement.  Run with
explicit fuel; fuel equal to the string length suffices because every
step consumes at least one input character (the source's patterns are
never empty, and the embedding keeps an empty-pattern guard so that the
recursion is total regardless). -/
def replaceSeqFuel (pat repl : List Char) : ℕ → List Char → List Char
  | 0, s => s
  | fuel + 1, s =>
    if !pat.isEmpty && startsWithSeq pat s then
      repl ++ replaceSeqFuel pat repl fuel (s.drop pat.length)
    else
      match s with
      | [] => []
      | c :: cs => c :: replaceSeqFuel pat repl fuel cs

/-- One iteration of the `for filler in &filler_words` loop body in
`ChannelProcessor::remove_filler_words` (`src/channel_processor.rs`,
lines 533–544): delete `"{filler} "`, then `" {filler}"`, then strip the
filler once from the front and once from the back when present. -/
def fillerStep (res : List Char) (filler : List Char) : List Char :=
  let r1 := replaceSeqFuel (filler ++ [' ']) [] res.length res
  let r2 := replaceSeqFuel ([' '] ++ filler) [] r1.length r1
  let r3 := if startsWithSeq filler r2 then r2.drop filler.length else r2
  let r4 := if endsWithSeq filler r3 then r3.take (r3.length - filler.length) else r3
  r4

/-- Two consecutive spaces, the pattern of the collapse loop. -/
def twoSpaces : List Char := [' ', ' ']

/-- The `while result.contains("  ") { result = result.replace("  ", " ") }`
loop (`src/channel_processor.rs`, lines 547–549), with explicit fuel:
each iteration strictly shrinks the string, so fuel equal to the initial
length bounds the source loop's iterations. -/
def collapseLoop : ℕ → List Char → List Char
  | 0, s => s
  | fuel + 1, s =>
    if containsSeq twoSpaces s then
      collapseLoop fuel (replaceSeqFuel twoSpaces [' '] s.length s)
    else s

/-- Operation `str::trim`: drop leading whitespace, then trailing whitespace. -/
def trimChars (s : List Char) : List Char :=
  ((s.dropWhile isRustWhitespace).reverse.dropWhile isRustWhitespace).reverse

/-- The fixed filler list of `remove_filler_words`
(`src/channel_processor.rs`, lines 518–528), in source order. -/
def fillerWords : List (List Char) :=
  ["えっと".data, "あの".data, "ええと".data, "ええ".data, "えー".data,
   "えーと".data, "あのー".data, "っと".data, "っとー".data]

/-- Method `ChannelProcessor::remove_filler_words` (`src/channel_processor.rs`,
lines 516–553): apply each filler's deletion pass in order, collapse runs
of double spaces, trim. -/
def removeFillerWords (text : List Char) : List Char :=
  let afterFillers := fillerWords.foldl fillerStep text
  let collapsed := collapseLoop afterFillers.length afterFillers
  trimChars collapsed

/-! ## Theorems for claim C3: the VAD state transition -/

/-- The transition table of claim C3, as a predicate over a detector, a
chunk length and the chunk's dB reading (`d` is the chunk duration the
source computes from the length). -/
def VadTransitionClaim (v : VoiceActivityDetector) (len : ℕ) (db : ℚ) : Prop :=
  let d := len * 1000 / v.sampleRate
  let r := v.process len db
  ((v.state = VadState.Silence ∧ v.thresholdDb < db) →
      r.1.state = VadState.Voice v.hangoverDurationMs) ∧
  (∀ hg, (v.state = VadState.Voice hg ∧ v.thresholdDb < db) →
      r.1.state = VadState.Voice v.hangoverDurationMs) ∧
  (∀ hg, (v.state = VadState.Voice hg ∧ db ≤ v.thresholdDb) →
      r.1.state = if d < hg then VadState.Voice (hg - d) else VadState.Silence) ∧
  ((v.state = VadState.Silence ∧ db ≤ v.thresholdDb) →
      r.1.state = VadState.Silence) ∧
  (r.2 = true ↔ ∃ hg, r.1.state = VadState.Voice hg)

/-- C3: for every non-empty chunk, `VoiceActivityDetector::process` follows
exactly the claimed state transitions — `Silence` with dB > threshold goes
to `Voice{hangover_full}`, `Voice{h}` with dB > threshold resets to
`Voice{hangover_full}`, `Voice{h}` with dB ≤ threshold decays to
`Voice{h − d}` when `h > d` and to `Silence` otherwise, `Silence` with
dB ≤ threshold stays `Silence` — and the returned flag is `true` iff the
resulting state is `Voice`. -/
theorem vad_process_transition (v : VoiceActivityDetector) (len : ℕ) (db : ℚ)
    (hlen : len ≠ 0) : VadTransitionClaim v len db := by
  unfold VadTransitionClaim VoiceActivityDetector.process
  simp only [if_neg hlen]
  rcases hst : v.state with _ | hg0 <;>
    by_cases hdb : v.thresholdDb < db <;>
      refine ⟨?_, ?_, ?_, ?_, ?_⟩ <;>
        simp_all <;>
          try exact fun h => absurd hdb (not_lt.mpr h)
  all_goals try (split <;> simp_all)
  all_goals (intro x; rw [if_neg (not_lt.mpr hdb)]; simp)

/-- Witness for C3 at a concrete detector and chunk: threshold −40 dB,
hangover 500 ms, silent state, a 1600-sample (100 ms @ 16 kHz) chunk at
0 dB. -/
theorem vad_process_transition_witness :
    (1600 : ℕ) ≠ 0 ∧
      VadTransitionClaim
        { thresholdDb := -40, hangoverDurationMs := 500,
          state := VadState.Silence, sampleRate := 16000 } 1600 0 :=
  ⟨by decide,
   vad_process_transition
     { thresholdDb := -40, hangoverDurationMs := 500,
       state := VadState.Silence, sampleRate := 16000 } 1600 0 (by decide)⟩

/-! ## Theorems for claim C5: retry-buffer push invariant -/

theorem sumSamples_append (l1 l2 : List BufferedChunk) :
    sumSamples (l1 ++ l2) = sumSamples l1 + sumSamples l2 := by
  simp [sumSamples]

theorem evictLoop_spec (policy : DropPolicy) (cap : ℕ) :
    ∀ (fuel : ℕ) (chunks : List BufferedChunk) (total : ℕ),
      total = sumSamples chunks → chunks.length ≤ fuel →
      (evictLoop policy cap fuel chunks total).2 =
          sumSamples (evictLoop policy cap fuel chunks total).1 ∧
        (evictLoop policy cap fuel chunks total).2 ≤ cap := by
  intro fuel
  induction fuel with
  | zero =>
    intro chunks total hsum hlen
    have : chunks = [] := List.length_eq_zero.mp (Nat.le_zero.mp hlen)
    subst this
    simp [evictLoop, sumSamples] at hsum ⊢
    simp [hsum]
  | succ n ih =>
    intro chunks total hsum hlen
    simp only [evictLoop]
    by_cases hle : total ≤ cap
    · rw [if_pos hle]
      exact ⟨hsum, hle⟩
    · simp only [if_neg hle]
      match policy with
      | DropPolicy.DropOldest | DropPolicy.Block =>
        match chunks with
        | [] =>
          simp [sumSamples] at hsum
          omega
        | c :: rest =>
          have hs : total - c.samples.length = sumSamples rest := by
            simp [sumSamples] at hsum ⊢
            omega
          exact ih rest _ hs (by simpa using Nat.le_of_succ_le_succ (by simpa using hlen))
      | DropPolicy.DropNewest =>
        match hg : chunks.getLast? with
        | none =>
          have : chunks = [] := by
            cases chunks with
            | nil => rfl
            | cons a l => simp [List.getLast?_concat] at hg
          subst this
          simp [sumSamples] at hsum
          omega
        | some c =>
          have hne : chunks ≠ [] := by
            intro h; subst h; simp at hg
          have hdecomp : chunks.dropLast ++ [c] = chunks := by
            have h2 := List.dropLast_append_getLast hne
            rw [List.getLast?_eq_getLast chunks hne, Option.some_inj] at hg
            rw [hg] at h2
            exact h2

          have hs : total - c.samples.length = sumSamples chunks.dropLast := by
            have : sumSamples chunks = sumSamples chunks.dropLast + c.samples.length := by
              conv_lhs => rw [← hdecomp]
              simp [sumSamples_append, sumSamples]
            omega
          have hlen2 : chunks.dropLast.length ≤ n := by
            have h1 : chunks.length = chunks.dropLast.length + 1 := by
              conv_lhs => rw [← hdecomp]
              simp
            omega
          exact ih chunks.dropLast _ hs hlen2

theorem evictLoop_block_eq_dropOldest (cap : ℕ) :
    ∀ (fuel : ℕ) (chunks : List BufferedChunk) (total : ℕ),
      evictLoop DropPolicy.Block cap fuel chunks total =
        evictLoop DropPolicy.DropOldest cap fuel chunks total := by
  intro fuel
  induction fuel with
  | zero => intro chunks total; rfl
  | succ n ih =>
    intro chunks total
    simp only [evictLoop]
    by_cases hle : total ≤ cap
    · simp [hle]
    · simp only [if_neg hle]
      cases chunks with
      | nil => rfl
      | cons c rest => exact ih rest _

theorem push_wf (b : AudioBuffer) (c : BufferedChunk)
    (hwf : b.totalSamples = sumSamples b.chunks) :
    (b.push c).totalSamples = sumSamples (b.push c).chunks ∧
      (b.push c).totalSamples ≤ b.capacitySamples := by
  unfold AudioBuffer.push
  have hs : b.totalSamples + c.samples.length = sumSamples (b.chunks ++ [c]) := by
    simp [sumSamples_append, sumSamples, hwf]
  exact evictLoop_spec b.dropPolicy b.capacitySamples (b.chunks ++ [c]).length
    (b.chunks ++ [c]) _ hs le_rfl

theorem push_capacity_eq (b : AudioBuffer) (c : BufferedChunk) :
    (b.push c).capacitySamples = b.capacitySamples ∧
      (b.push c).dropPolicy = b.dropPolicy := by
  unfold AudioBuffer.push
  exact ⟨rfl, rfl⟩

theorem pushAll_wf (cs : List BufferedChunk) :
    ∀ (b : AudioBuffer), b.totalSamples = sumSamples b.chunks →
      (b.pushAll cs).totalSamples = sumSamples (b.pushAll cs).chunks ∧
        (b.pushAll cs).capacitySamples = b.capacitySamples ∧
        (cs ≠ [] → (b.pushAll cs).totalSamples ≤ b.capacitySamples) := by
  induction cs with
  | nil =>
    intro b hwf
    exact ⟨hwf, rfl, fun h => absurd rfl h⟩
  | cons c rest ih =>
    intro b hwf
    have h1 := push_wf b c hwf
    have h2 := push_capacity_eq b c
    have h3 := ih (b.push c) h1.1
    refine ⟨h3.1, h3.2.1.trans h2.1, fun _ => ?_⟩
    cases rest with
    | nil =>
      simpa [AudioBuffer.pushAll] using h1.2
    | cons d ds =>
      have := h3.2.2 (by simp)
      rw [h2.1] at this
      exact this

theorem push_policy_irrelevant_chunks (c : BufferedChunk) (b1 b2 : AudioBuffer)
    (hch : b1.chunks = b2.chunks) (ht : b1.totalSamples = b2.totalSamples)
    (hcap : b1.capacitySamples = b2.capacitySamples)
    (h1 : b1.dropPolicy = DropPolicy.Block) (h2 : b2.dropPolicy = DropPolicy.DropOldest) :
    (b1.push c).chunks = (b2.push c).chunks ∧
      (b1.push c).totalSamples = (b2.push c).totalSamples := by
  unfold AudioBuffer.push
  simp [h1, h2, hch, ht, hcap, evictLoop_block_eq_dropOldest]

theorem pushAll_block_eq_dropOldest (cs : List BufferedChunk) :
    ∀ (b1 b2 : AudioBuffer), b1.chunks = b2.chunks →
      b1.totalSamples = b2.totalSamples → b1.capacitySamples = b2.capacitySamples →
      b1.dropPolicy = DropPolicy.Block → b2.dropPolicy = DropPolicy.DropOldest →
      (b1.pushAll cs).chunks = (b2.pushAll cs).chunks := by
  induction cs with
  | nil => intro b1 b2 hch _ _ _ _; exact hch
  | cons c rest ih =>
    intro b1 b2 hch ht hcap h1 h2
    have hp := push_policy_irrelevant_chunks c b1 b2 hch ht hcap h1 h2
    have hc1 := push_capacity_eq b1 c
    have hc2 := push_capacity_eq b2 c
    exact ih (b1.push c) (b2.push c) hp.1 hp.2 (by rw [hc1.1, hc2.1, hcap])
      (by rw [hc1.2, h1]) (by rw [hc2.2, h2])

/-- C5: for every sequence of pushes into the retry buffer and each drop
policy, after every push the stored total equals the sum of the stored
chunks' lengths and is at most `capacity_seconds * sample_rate`; the
`Block` policy produces the same buffer contents as `DropOldest`.  (The
"after each push" form of the claim is the instance of this statement at
every prefix of the push sequence.) -/
theorem buffer_push_total_invariant (capacitySeconds sampleRate : ℕ) (pol : DropPolicy)
    (cs : List BufferedChunk) :
    ((AudioBuffer.new capacitySeconds pol sampleRate).pushAll cs).totalSamples =
        sumSamples ((AudioBuffer.new capacitySeconds pol sampleRate).pushAll cs).chunks ∧
      ((AudioBuffer.new capacitySeconds pol sampleRate).pushAll cs).totalSamples ≤
        capacitySeconds * sampleRate ∧
      ((AudioBuffer.new capacitySeconds DropPolicy.Block sampleRate).pushAll cs).chunks =
        ((AudioBuffer.new capacitySeconds DropPolicy.DropOldest sampleRate).pushAll cs).chunks := by
  have h := pushAll_wf cs (AudioBuffer.new capacitySeconds pol sampleRate) (by simp [AudioBuffer.new, sumSamples])
  refine ⟨h.1, ?_, ?_⟩
  · cases cs with
    | nil => simp [AudioBuffer.pushAll, AudioBuffer.new]
    | cons c rest =>
      have := h.2.2 (by simp)
      simpa [AudioBuffer.new] using this
  · exact pushAll_block_eq_dropOldest cs _ _ rfl rfl rfl rfl rfl


/-! ## Theorems for claim C10: filler-word removal -/

/-- Predicate `starts_with` characterized as prefix decomposition. -/
theorem startsWithSeq_iff (pat : List Char) :
    ∀ s, startsWithSeq pat s = true ↔ ∃ t, s = pat ++ t := by
  induction pat with
  | nil =>
    intro s
    simp [startsWithSeq]
  | cons p ps ih =>
    intro s
    cases s with
    | nil => simp [startsWithSeq]
    | cons c cs =>
      simp only [startsWithSeq, Bool.and_eq_true, beq_iff_eq, ih, List.cons_append,
        List.cons.injEq]
      constructor
      · rintro ⟨rfl, t, rfl⟩
        exact ⟨t, rfl, rfl⟩
      · rintro ⟨t, rfl, rfl⟩
        exact ⟨rfl, t, rfl⟩

/-- Predicate `contains` characterized as substring decomposition. -/
theorem containsSeq_iff (pat : List Char) :
    ∀ s, containsSeq pat s = true ↔ ∃ l r, s = l ++ (pat ++ r) := by
  intro s
  induction s with
  | nil =>
    simp only [containsSeq, startsWithSeq_iff]
    constructor
    · rintro ⟨t, ht⟩
      exact ⟨[], t, by simpa using ht⟩
    · rintro ⟨l, r, h⟩
      rcases List.append_eq_nil.mp h.symm with ⟨rfl, h2⟩
      exact ⟨r, by simpa using h⟩
  | cons c cs ih =>
    simp only [containsSeq, Bool.or_eq_true, startsWithSeq_iff, ih]
    constructor
    · rintro (⟨t, ht⟩ | ⟨l, r, rfl⟩)
      · exact ⟨[], t, by simpa using ht⟩
      · exact ⟨c :: l, r, rfl⟩
    · rintro ⟨l, r, h⟩
      cases l with
      | nil =>
        exact Or.inl ⟨r, by simpa using h⟩
      | cons d l2 =>
        simp only [List.cons_append, List.cons.injEq] at h
        exact Or.inr ⟨l2, r, h.2⟩

/-- A prefix occurrence is an occurrence. -/
theorem containsSeq_of_startsWith (pat s : List Char)
    (h : startsWithSeq pat s = true) : containsSeq pat s = true := by
  cases s <;> simp [containsSeq, h]

/-- A suffix occurrence is an occurrence. -/
theorem containsSeq_of_endsWith (pat s : List Char)
    (h : endsWithSeq pat s = true) : containsSeq pat s = true := by
  unfold endsWithSeq at h
  rcases (startsWithSeq_iff pat.reverse s.reverse).mp h with ⟨t, ht⟩
  rw [containsSeq_iff]
  refine ⟨t.reverse, [], ?_⟩
  have := congrArg List.reverse ht
  simpa using this

/-- An occurrence of `p ++ q` contains an occurrence of `p`. -/
theorem containsSeq_of_append_left (p q s : List Char)
    (h : containsSeq (p ++ q) s = true) : containsSeq p s = true := by
  rw [containsSeq_iff] at h ⊢
  rcases h with ⟨l, r, rfl⟩
  exact ⟨l, q ++ r, by simp⟩

/-- An occurrence of `p ++ q` contains an occurrence of `q`. -/
theorem containsSeq_of_append_right (p q s : List Char)
    (h : containsSeq (p ++ q) s = true) : containsSeq q s = true := by
  rw [containsSeq_iff] at h ⊢
  rcases h with ⟨l, r, rfl⟩
  exact ⟨l ++ p, r, by simp⟩

/-- Operation `replace` is the identity on strings without the pattern. -/
theorem replaceSeqFuel_of_not_contains (pat repl : List Char) :
    ∀ (n : ℕ) (s : List Char), containsSeq pat s = false →
      replaceSeqFuel pat repl n s = s := by
  intro n
  induction n with
  | zero => intro s _; rfl
  | succ m ih =>
    intro s h
    have hsw : startsWithSeq pat s = false := by
      cases hb : startsWithSeq pat s
      · rfl
      · rw [containsSeq_of_startsWith pat s hb] at h
        cases h
    simp only [replaceSeqFuel, hsw, Bool.and_false, Bool.false_eq_true, if_false]
    cases s with
    | nil => rfl
    | cons c cs =>
      have hcs : containsSeq pat cs = false := by
        cases hb : containsSeq pat cs
        · rfl
        · have h2 : containsSeq pat (c :: cs) = true := by
            simp [containsSeq, hb]
          rw [h2] at h
          cases h
      show c :: replaceSeqFuel pat repl m cs = c :: cs
      rw [ih cs hcs]


/-- One filler pass is the identity on a string that does not contain the
filler at all. -/
theorem fillerStep_id (res filler : List Char)
    (h : containsSeq filler res = false) : fillerStep res filler = res := by
  unfold fillerStep
  have h1 : containsSeq (filler ++ [' ']) res = false := by
    cases hb : containsSeq (filler ++ [' ']) res
    · rfl
    · rw [containsSeq_of_append_left filler [' '] res hb] at h
      cases h
  have h2 : containsSeq ([' '] ++ filler) res = false := by
    cases hb : containsSeq ([' '] ++ filler) res
    · rfl
    · rw [containsSeq_of_append_right [' '] filler res hb] at h
      cases h
  have h3 : startsWithSeq filler res = false := by
    cases hb : startsWithSeq filler res
    · rfl
    · rw [containsSeq_of_startsWith filler res hb] at h
      cases h
  have h4 : endsWithSeq filler res = false := by
    cases hb : endsWithSeq filler res
    · rfl
    · rw [containsSeq_of_endsWith filler res hb] at h
      cases h
  simp only [replaceSeqFuel_of_not_contains _ _ _ _ h1]
  simp only [replaceSeqFuel_of_not_contains _ _ _ _ h2]
  simp [h3, h4]

/-- The whole filler fold is the identity when no filler occurs. -/
theorem foldl_fillerStep_id (fs : List (List Char)) :
    ∀ res : List Char, (∀ f ∈ fs, containsSeq f res = false) →
      fs.foldl fillerStep res = res := by
  induction fs with
  | nil => intro res _; rfl
  | cons f rest ih =>
    intro res h
    rw [List.foldl_cons, fillerStep_id res f (h f (by simp))]
    exact ih res (fun g hg => h g (by simp [hg]))

/-- One `"  " -> " "` pass never lengthens the string. -/
theorem replaceTwo_length_le :
    ∀ (n : ℕ) (s : List Char),
      (replaceSeqFuel twoSpaces [' '] n s).length ≤ s.length := by
  intro n
  induction n with
  | zero => intro s; exact le_rfl
  | succ m ih =>
    intro s
    by_cases hb : startsWithSeq twoSpaces s = true
    · rcases (startsWithSeq_iff twoSpaces s).mp hb with ⟨t, rfl⟩
      simp only [replaceSeqFuel, hb, Bool.and_true]
      rw [if_pos (show (!twoSpaces.isEmpty) = true from rfl)]
      have := ih (List.drop twoSpaces.length (twoSpaces ++ t))
      simp [twoSpaces] at this ⊢
      omega
    · have hb2 : startsWithSeq twoSpaces s = false := by
        cases h2 : startsWithSeq twoSpaces s
        · rfl
        · exact absurd h2 hb
      simp only [replaceSeqFuel, hb2, Bool.and_false, Bool.false_eq_true, if_false]
      cases s with
      | nil => simp
      | cons c cs =>
        have := ih cs
        simp only [List.length_cons]
        omega

/-- One `"  " -> " "` pass strictly shortens a string that contains a
double space (with enough fuel). -/
theorem replaceTwo_length_lt :
    ∀ (n : ℕ) (s : List Char), s.length ≤ n → containsSeq twoSpaces s = true →
      (replaceSeqFuel twoSpaces [' '] n s).length < s.length := by
  intro n
  induction n with
  | zero =>
    intro s hs hc
    have hnil : s = [] := List.eq_nil_of_length_eq_zero (Nat.le_zero.mp hs)
    subst hnil
    simp [containsSeq, startsWithSeq, twoSpaces] at hc
  | succ m ih =>
    intro s hs hc
    by_cases hb : startsWithSeq twoSpaces s = true
    · rcases (startsWithSeq_iff twoSpaces s).mp hb with ⟨t, rfl⟩
      simp only [replaceSeqFuel, hb, Bool.and_true]
      rw [if_pos (show (!twoSpaces.isEmpty) = true from rfl)]
      have := replaceTwo_length_le m (List.drop twoSpaces.length (twoSpaces ++ t))
      simp [twoSpaces] at this ⊢
      omega
    · have hb2 : startsWithSeq twoSpaces s = false := by
        cases h2 : startsWithSeq twoSpaces s
        · rfl
        · exact absurd h2 hb
      simp only [replaceSeqFuel, hb2, Bool.and_false, Bool.false_eq_true, if_false]
      cases s with
      | nil =>
        rw [show containsSeq twoSpaces [] = false from rfl] at hc
        cases hc
      | cons c cs =>
        have hccs : containsSeq twoSpaces cs = true := by
          have h2 : containsSeq twoSpaces (c :: cs) =
              (startsWithSeq twoSpaces (c :: cs) || containsSeq twoSpaces cs) := rfl
          rw [h2, hb2, Bool.false_or] at hc
          exact hc
        have hlen : cs.length ≤ m := by
          simp only [List.length_cons] at hs
          omega
        have := ih cs hlen hccs
        simp only [List.length_cons]
        omega


/-- The collapse loop is the identity without a double space. -/
theorem collapseLoop_id (n : ℕ) (s : List Char)
    (h : containsSeq twoSpaces s = false) : collapseLoop n s = s := by
  cases n with
  | zero => rfl
  | succ m =>
    simp only [collapseLoop, h, Bool.false_eq_true, if_false]

/-- After the collapse loop (fuel = length), no double space remains —
this also bounds the iterations of the source's unbounded `while`. -/
theorem collapseLoop_no_two (n : ℕ) :
    ∀ s : List Char, s.length ≤ n →
      containsSeq twoSpaces (collapseLoop n s) = false := by
  induction n with
  | zero =>
    intro s hs
    have hnil : s = [] := List.eq_nil_of_length_eq_zero (Nat.le_zero.mp hs)
    subst hnil
    rfl
  | succ m ih =>
    intro s hs
    by_cases hc : containsSeq twoSpaces s = true
    · simp only [collapseLoop, hc, if_true]
      apply ih
      have := replaceTwo_length_lt s.length s le_rfl hc
      omega
    · have hc2 : containsSeq twoSpaces s = false := by
        cases hb : containsSeq twoSpaces s
        · rfl
        · exact absurd hb hc
      simp only [collapseLoop, hc2, Bool.false_eq_true, if_false]

/-- Function `dropWhile` is idempotent. -/
theorem dropWhile_self (p : Char → Bool) (l : List Char) :
    (l.dropWhile p).dropWhile p = l.dropWhile p := by
  induction l with
  | nil => rfl
  | cons c cs ih =>
    by_cases h : p c
    · simp [List.dropWhile_cons, h, ih]
    · simp [List.dropWhile_cons, h]

/-- A prefix of a `dropWhile p`-fixed list is itself fixed. -/
theorem dropWhile_eq_self_of_head (p : Char → Bool) (l a : List Char)
    (hpre : l <+: a) (ha : a.dropWhile p = a) : l.dropWhile p = l := by
  cases l with
  | nil => rfl
  | cons c cs =>
    rcases hpre with ⟨t, rfl⟩
    by_cases h : p c
    · exfalso
      have h2 : (c :: (cs ++ t)).dropWhile p = (cs ++ t).dropWhile p := by
        simp [List.dropWhile_cons, h]
      rw [List.cons_append] at ha
      rw [h2] at ha
      have hlen := congrArg List.length ha
      have hle := (List.dropWhile_suffix (l := cs ++ t) p).sublist.length_le
      simp only [List.length_cons, List.length_append] at hlen hle
      omega
    · simp [List.dropWhile_cons, h]

/-- The trimmed string is a prefix of the leading-whitespace-stripped one. -/
theorem trimChars_prefix_core (s : List Char) :
    trimChars s <+: s.dropWhile isRustWhitespace := by
  unfold trimChars
  have h := List.dropWhile_suffix (l := (s.dropWhile isRustWhitespace).reverse)
      (p := isRustWhitespace)
  rw [← List.reverse_prefix] at h
  simpa using h

/-- Function `trim` is idempotent. -/
theorem trimChars_trimChars (s : List Char) :
    trimChars (trimChars s) = trimChars s := by
  have h1 : (trimChars s).dropWhile isRustWhitespace = trimChars s := by
    apply dropWhile_eq_self_of_head isRustWhitespace (trimChars s)
        (s.dropWhile isRustWhitespace) (trimChars_prefix_core s)
    exact dropWhile_self isRustWhitespace s
  show ((((trimChars s).dropWhile isRustWhitespace).reverse.dropWhile
      isRustWhitespace).reverse) = trimChars s
  rw [h1]
  unfold trimChars
  rw [List.reverse_reverse, dropWhile_self]

/-- An occurrence inside the trimmed string occurs in the original. -/
theorem containsSeq_of_contains_trim (pat s : List Char)
    (h : containsSeq pat (trimChars s) = true) : containsSeq pat s = true := by
  rw [containsSeq_iff] at h ⊢
  rcases h with ⟨l, r, hlr⟩
  have hmid : ∃ u v, s = u ++ (trimChars s ++ v) := by
    have hsplit1 : s = s.takeWhile isRustWhitespace ++ s.dropWhile isRustWhitespace :=
      (List.takeWhile_append_dropWhile isRustWhitespace s).symm
    set a := s.dropWhile isRustWhitespace with ha
    have hsplit2 : a.reverse = a.reverse.takeWhile isRustWhitespace ++
        a.reverse.dropWhile isRustWhitespace :=
      (List.takeWhile_append_dropWhile isRustWhitespace a.reverse).symm
    have hsplit3 : a = trimChars s ++ (a.reverse.takeWhile isRustWhitespace).reverse := by
      have h4 := congrArg List.reverse hsplit2
      rw [List.reverse_reverse, List.reverse_append] at h4
      have h5 : trimChars s = (a.reverse.dropWhile isRustWhitespace).reverse := by
        simp only [trimChars, ← ha]
      rw [h5]
      exact h4
    refine ⟨s.takeWhile isRustWhitespace, (a.reverse.takeWhile isRustWhitespace).reverse, ?_⟩
    conv_lhs => rw [hsplit1, hsplit3]
  rcases hmid with ⟨u, v, huv⟩
  refine ⟨u ++ l, r ++ v, ?_⟩
  calc s = u ++ (trimChars s ++ v) := huv
    _ = u ++ ((l ++ (pat ++ r)) ++ v) := by rw [← hlr]
    _ = (u ++ l) ++ (pat ++ (r ++ v)) := by simp


/-- Method `remove_filler_words` is the identity on a string containing no filler
token, no double space, and no surrounding whitespace. -/
theorem removeFillerWords_id (y : List Char)
    (hNoFill : ∀ f ∈ fillerWords, containsSeq f y = false)
    (h2s : containsSeq twoSpaces y = false)
    (htrim : trimChars y = y) :
    removeFillerWords y = y := by
  simp only [removeFillerWords]
  rw [foldl_fillerStep_id fillerWords y hNoFill]
  rw [collapseLoop_id y.length y h2s]
  exact htrim

set_option maxRecDepth 20000 in
/-- C10 (counterexample): filler removal is *not* idempotent.  On
`"えっあの とか"` one pass deletes `"あの "`, gluing `えっ` and `と` into a
fresh occurrence of the filler `えっと` in the middle of the string, where
no later pass of the same call can reach it; the first cleaning returns
`"えっとか"` and cleaning again returns `"か"`. -/
theorem remove_filler_words_not_idempotent :
    removeFillerWords (removeFillerWords "えっあの とか".data) ≠
      removeFillerWords "えっあの とか".data := by decide

/-- C10 (amended): filler removal is idempotent on exactly those inputs
whose cleaned form contains no filler token as a substring (deletions can
concatenate surrounding characters into new filler occurrences, which is
the one way a second pass can differ). -/
theorem remove_filler_words_idempotent_of_clean (x : List Char)
    (h : fillerWords.all (fun f => !(containsSeq f (removeFillerWords x))) = true) :
    removeFillerWords (removeFillerWords x) = removeFillerWords x := by
  have hNoFill : ∀ f ∈ fillerWords, containsSeq f (removeFillerWords x) = false := by
    intro f hf
    have h2 := List.all_eq_true.mp h f hf
    simpa using h2
  have h2s : containsSeq twoSpaces (removeFillerWords x) = false := by
    cases hb : containsSeq twoSpaces (removeFillerWords x)
    · rfl
    · exfalso
      simp only [removeFillerWords] at hb
      have hcc := containsSeq_of_contains_trim _ _ hb
      rw [collapseLoop_no_two _ _ le_rfl] at hcc
      cases hcc
  have htrim : trimChars (removeFillerWords x) = removeFillerWords x := by
    simp only [removeFillerWords]
    exact trimChars_trimChars _
  exact removeFillerWords_id (removeFillerWords x) hNoFill h2s htrim

set_option maxRecDepth 20000 in
/-- Witness for the amended C10 at a filler-free concrete input. -/
theorem remove_filler_words_idempotent_witness :
    fillerWords.all
        (fun f => !(containsSeq f (removeFillerWords "こんにちは".data))) = true ∧
      removeFillerWords (removeFillerWords "こんにちは".data) =
        removeFillerWords "こんにちは".data :=
  ⟨by decide, remove_filler_words_idempotent_of_clean "こんにちは".data (by decide)⟩


end DcrTranscribe
